import Mathlib

/-!
Shallow embedding of the label layout / text wrapping engine of
py-capellambse (`capellambse/helpers.py`, `capellambse/svg/helpers.py`,
`capellambse/svg/drawing.py`).

Text is modelled as `List Char` (Python `str`), pixel sizes as `ℚ`
(Python floats), and the font-metric backend `extent_func` as an
explicit parameter `Measurer`.  Fallible Python code (assert statements,
`max()` on an empty sequence, calls with a mismatched argument count,
`raise NotImplementedError`) is modelled with `Except PyErr`.
-/

/-- A text line, Python `str` as a list of characters. -/
abbrev Line := List Char

/-- Python exceptions raised by the modelled code. -/
inductive PyErr where
  | typeError
  | assertionError
  | valueError
  | notImplementedError
deriving DecidableEq, Repr

/-- The `extent_func` text-measurement backend: width and height in pixels. -/
abbrev Measurer := Line → ℚ × ℚ

/-- Measured width of a string, `extent_func(s)[0]`. -/
def extentW (M : Measurer) (s : Line) : ℚ := (M s).1

/-- Measured height of a string, `extent_func(s)[1]`. -/
def extentH (M : Measurer) (s : Line) : ℚ := (M s).2

/-- Python `\s` / `str.split()` whitespace, for ASCII text. -/
def pyIsSpace (c : Char) : Bool :=
  c = ' ' || c = '\t' || c = '\n' || c = '\r' || c = '\x0b' || c = '\x0c'

/-- Python `str.splitlines()` for newline-separated text:
`"" ↦ []`, a trailing newline does not produce a final empty line. -/
def splitlines : List Char → List Line
  | [] => []
  | c :: cs =>
    if c = '\n' then [] :: splitlines cs
    else
      match splitlines cs with
      | [] => [[c]]
      | l :: ls => (c :: l) :: ls

/-- Python `str.split()` (split on whitespace runs, dropping empty words). -/
def pySplit : List Char → List Line
  | [] => []
  | c :: cs =>
    if pyIsSpace c then pySplit cs
    else
      (c :: cs.takeWhile (fun d => !pyIsSpace d)) ::
        pySplit (cs.dropWhile (fun d => !pyIsSpace d))
termination_by l => l.length
decreasing_by
  all_goals simp
  have := List.IsSuffix.length_le
    (List.dropWhile_suffix (l := cs) (fun d => !pyIsSpace d))
  omega

/-- The leading-whitespace match `re.search(r"^\s*", line)`. -/
def leadingWS (l : Line) : Line := l.takeWhile pyIsSpace

/-- `splitline` from `word_wrap`: split a line into words, prepending the
preserved leading whitespace to the first word. -/
def splitline (l : Line) : List Line :=
  match pySplit l with
  | [] => []
  | w :: ws => (leadingWS l ++ w) :: ws

/-- `" ".join(...)`. -/
def joinSpace : List Line → Line
  | [] => []
  | [w] => w
  | w :: ws => w ++ ' ' :: joinSpace ws

/-- The `words_count` shrinking loop of `word_wrap`: starting from `k`,
decrement while the first `words_count` words joined are too wide and
`words_count > 0`. -/
def wcLoop (M : Measurer) (w : ℚ) (words : List Line) : Nat → Nat
  | 0 => 0
  | k + 1 =>
    if extentW M (joinSpace (words.take (k + 1))) > w then wcLoop M w words k
    else k + 1

/-- The `letters_count` shrinking loop of `word_wrap`: starting from `k`,
decrement while the prefix of the word is too wide and `letters_count > 1`. -/
def lcLoop (M : Measurer) (w : ℚ) (word : Line) : Nat → Nat
  | 0 => 0
  | 1 => 1
  | k + 2 =>
    if extentW M (word.take (k + 2)) > w then lcLoop M w word (k + 1)
    else k + 2

/-- Termination measure for the `word_wrap` main loop: every iteration
consumes at least one character or one word of the head input line. -/
def measureL (ls : List Line) : Nat := (ls.map (fun l => l.length + 1)).sum

/-- One iteration of the `while input_lines:` loop of `word_wrap`, for the
head input line; `recurse` continues the loop on the remaining deque. -/
def wordWrapStep (M : Measurer) (w : ℚ)
    (recurse : List Line → Option (List Line)) (line : Line)
    (rest : List Line) : Option (List Line) :=
  match splitline line with
  | [] => (recurse rest).map (fun out => [] :: out)
  | word :: tailWords =>
    let words := word :: tailWords
    let n := wcLoop M w words words.length
    if 0 < n then
      if n < words.length then
        (recurse (joinSpace (words.drop n) :: rest)).map
          (fun out => joinSpace (words.take n) :: out)
      else
        (recurse rest).map (fun out => joinSpace (words.take n) :: out)
    else
      let lc := lcLoop M w word word.length
      let rem :=
        if lc < word.length then word.drop lc :: tailWords else tailWords
      (recurse (joinSpace rem :: rest)).map (fun out => word.take lc :: out)

/-- Fuel-indexed translation of the `while input_lines:` loop of
`word_wrap`.  Each loop iteration consumes one unit of fuel; `none` means the
fuel ran out with input remaining. -/
def wordWrapF (M : Measurer) (w : ℚ) : Nat → List Line → Option (List Line)
  | _, [] => some []
  | 0, _ :: _ => none
  | fuel + 1, line :: rest => wordWrapStep M w (wordWrapF M w fuel) line rest

/-- `word_wrap(text, width)` from `capellambse/helpers.py`.  The loop is run
with fuel `measureL` of the split input; a lemma below proves this fuel
always suffices, so the `none` fallback below is unreachable. -/
def word_wrap (M : Measurer) (text : Line) (w : ℚ) : List Line :=
  match wordWrapF M w (measureL (splitlines text)) (splitlines text) with
  | some out => if out = [] then [[]] else out
  | none => [[]]

/-! ## `capellambse/svg/helpers.py` -/

/-- The `"..."` ellipsis suffix. -/
def dots : Line := ['.', '.', '.']

/-- The accumulation loop of `check_for_vertical_overflow`: walk the lines,
accepting while the running `text_height` plus the next line's height stays
within `height`; on overflow record `lines[i - 1] if i else line` (the
previous line, tracked in `prev`, or the current line for `i = 0`) and stop.
Returns `(lines_to_render, text_height, overflow)`; `overflow = []` encodes
the falsy `""`. -/
def clampLoop (M : Measurer) (height : ℚ) :
    List Line → ℚ → Option Line → List Line × ℚ × Line
  | [], th, _ => ([], th, [])
  | l :: ls, th, prev =>
    if th + extentH M l > height then
      ([], th, match prev with | none => l | some p => p)
    else
      let r := clampLoop M height ls (th + extentH M l) (some l)
      (l :: r.1, r.2.1, r.2.2)

/-- The ellipsis handling of `check_for_vertical_overflow`: append `"..."`
if the result still fits `max_text_width`, otherwise re-wrap the overflow
candidate against `floor(max_text_width - width("..."))` and take the first
resulting line. -/
def ellipsize (M : Measurer) (maxTextWidth : ℚ) (overflow : Line) : Line :=
  if extentW M (overflow ++ dots) < maxTextWidth then overflow ++ dots
  else
    (word_wrap M overflow
        ((Rat.floor (maxTextWidth - extentW M dots) : ℤ) : ℚ)).headD []
      ++ dots

/-- `check_for_vertical_overflow(lines, height, max_text_width)` from
`capellambse/svg/helpers.py`.  The final `assert height >= text_height` is
modelled as `Except`. -/
def check_for_vertical_overflow (M : Measurer) (lines : List Line)
    (height maxTextWidth : ℚ) : Except PyErr (List Line) :=
  let r := clampLoop M height lines 0 none
  let overflow := r.2.2
  let lines_to_render :=
    if overflow ≠ [] then
      if r.1 ≠ [] then r.1.dropLast ++ [ellipsize M maxTextWidth overflow]
      else [ellipsize M maxTextWidth overflow]
    else r.1
  if height ≥ r.2.1 then .ok lines_to_render else .error .assertionError

/-- The index of the line at which the accumulation loop of
`check_for_vertical_overflow` stops (`none`: every line is accepted). -/
def breakIndex (M : Measurer) (height : ℚ) :
    List Line → ℚ → Option Nat
  | [], _ => none
  | l :: ls, th =>
    if th + extentH M l > height then some 0
    else (breakIndex M height ls (th + extentH M l)).map (· + 1)

/-- Python `max(...)`: `ValueError` on an empty sequence. -/
def listMax : List ℚ → Except PyErr ℚ
  | [] => .error .valueError
  | x :: xs => .ok (xs.foldl max x)

/-- `check_for_horizontal_overflow(text, width, icon_padding, icon_size)`
from `capellambse/svg/helpers.py`; its three `assert` statements are
modelled as `Except`.  Returns `(lines, label_margin, max_text_width)`. -/
def check_for_horizontal_overflow (M : Measurer) (text : Line)
    (width icon_padding icon_size : ℚ) :
    Except PyErr (List Line × ℚ × ℚ) :=
  let max_text_width := width - (icon_size + 2 * icon_padding)
  if 0 ≤ max_text_width then
    let lines := word_wrap M text max_text_width
    match listMax (lines.map (extentW M)) with
    | .error e => .error e
    | .ok text_width =>
      let label_width := text_width + icon_size + 2 * icon_padding
      if text_width ≤ max_text_width then
        if label_width ≤ width then
          .ok (lines, (width - label_width) / 2, max_text_width)
        else .error .assertionError
      else .error .assertionError
  else .error .assertionError

/-! ## `capellambse/svg/drawing.py` -/

/-- `LinesData`, the helper tuple for rendering text lines from labels. -/
structure LinesData where
  lines : List Line
  line_height : ℚ
  text_height : ℚ
  margin : ℚ
  max_line_width : ℚ
deriving DecidableEq, Repr

/-- Number of parameters `check_for_horizontal_overflow` declares
(`text, width, icon_padding, icon_size`). -/
def chfoParamCount : Nat := 4

/-- Number of positional arguments `render_hbounded_lines` passes to
`check_for_horizontal_overflow` (`str(builder.label["text"])`,
`builder.label["width"]`, icon padding, icon size, `builder.alignment`). -/
def chfoArgCountPassed : Nat := 5

/-- `render_hbounded_lines(builder, render_icon)` from
`capellambse/svg/drawing.py`.  Python raises `TypeError` when a call
passes more positional arguments than the callee declares, before the
callee body runs; the guard models that arity check for its call of
`check_for_horizontal_overflow`. -/
def render_hbounded_lines (M : Measurer) (labelText : Line)
    (labelWidth labelHeight : ℚ) (render_icon : Bool)
    (icon_size icon_padding : ℚ) : Except PyErr LinesData :=
  if chfoArgCountPassed = chfoParamCount then
    match
      check_for_horizontal_overflow M labelText labelWidth
        (if render_icon then icon_padding else 0)
        (if render_icon then icon_size else 0) with
    | .error e => .error e
    | .ok (lines, label_margin, max_text_width) =>
      match check_for_vertical_overflow M lines labelHeight max_text_width with
      | .error e => .error e
      | .ok lines_to_render =>
        match listMax (lines_to_render.map (extentH M)) with
        | .error e => .error e
        | .ok line_height =>
          match listMax (lines_to_render.map (extentW M)) with
          | .error e => .error e
          | .ok max_line_width =>
            if max_text_width ≥ max_line_width then
              .ok ⟨lines_to_render, line_height,
                line_height * lines_to_render.length, label_margin,
                max_line_width⟩
            else .error .assertionError
  else .error .typeError

/-- `get_label_position_x(builder, lines, render_icon)` from
`capellambse/svg/drawing.py`: x-coordinates of label text and icon.
`icon_padding` stands for the module constant `decorations.icon_padding`. -/
def get_label_position_x (text_anchor : String) (labelX labelWidth : ℚ)
    (builder_icon_size icon_padding : ℚ) (lines : LinesData)
    (render_icon : Bool) : ℚ × ℚ :=
  let icon_size :=
    (builder_icon_size + icon_padding) * (if render_icon then 1 else 0)
  let sh_icon_size :=
    (builder_icon_size + icon_padding / 2) * (if render_icon then 1 else 0)
  if text_anchor = "start" then
    let x := labelX + lines.margin + icon_size
    (x, x - sh_icon_size)
  else
    let x := labelX + (labelWidth + icon_size) / 2
    (x, x - (lines.max_line_width / 2 + sh_icon_size))

/-- The captured groups of a successful `RE_ROTATION` match on a label
style's `transform` attribute: `rotate(angle, x, y) tspan_y`. -/
structure RotationMatch where
  angle : String
  x : ℚ
  y : ℚ
  tspan_y : Option ℚ
deriving DecidableEq, Repr

/-- The rotation handling of `_draw_label`: any matched angle other than
the literal `-90` raises `NotImplementedError`; otherwise the rotation
pivot is `(x, y)` with `y` replaced by the matched `tspan_y` if present. -/
def drawLabelRotationCheck (rot : RotationMatch) : Except PyErr (ℚ × ℚ) :=
  if rot.angle ≠ "-90" then .error .notImplementedError
  else .ok (rot.x, match rot.tspan_y with | some ty => ty | none => rot.y)

/-- The label text layout of `_draw_label` when the label style carries a
matched rotation `transform`: a single `TSpan` holding the whole label
text, inserted at the rotation pivot — `word_wrap` and
`check_for_vertical_overflow` are never consulted. -/
def drawLabelRotated (rot : RotationMatch) (labelText : Line) :
    Except PyErr (List Line × (ℚ × ℚ)) :=
  match drawLabelRotationCheck rot with
  | .error e => .error e
  | .ok pivot => .ok ([labelText], pivot)

/-! ## Concrete measurers used by witnesses and counterexamples -/

/-- A deterministic stub measurer: every character is 10 px wide, every
line is 10 px high. -/
def stubM : Measurer := fun s => (10 * s.length, 10)

/-- A measurer for counterexamples: width is the character count, every
line is 1 px high except `"B"`, which is 5 px high. -/
def cexM : Measurer := fun s => (s.length, if s = ['B'] then 5 else 1)

/-- Total measured height of a list of lines. -/
def sumHeights (M : Measurer) (ls : List Line) : ℚ :=
  (ls.map (extentH M)).sum

/-! ## Structural lemmas about splitting and joining -/

theorem dropWhile_head_false (p : Char → Bool) (l : List Char) (c : Char)
    (cs : List Char) (h : l.dropWhile p = c :: cs) : p c = false := by
  induction l generalizing c cs with
  | nil => simp [List.dropWhile] at h
  | cons a as ih =>
    rw [List.dropWhile] at h
    cases hp : p a with
    | true => rw [hp] at h; exact ih c cs h
    | false =>
      rw [hp] at h
      simp only [List.cons.injEq] at h
      rw [← h.1]
      exact hp

theorem joinSpace_cons (w : Line) (ws : List Line) :
    joinSpace (w :: ws) = w ++ (if ws = [] then [] else ' ' :: joinSpace ws) := by
  cases ws with
  | nil => simp [joinSpace]
  | cons x xs => simp [joinSpace]

theorem length_joinSpace_cons (w : Line) (ws : List Line) :
    (joinSpace (w :: ws)).length
      = w.length + (if ws = [] then 0 else 1 + (joinSpace ws).length) := by
  rw [joinSpace_cons]
  cases ws with
  | nil => simp
  | cons x xs =>
    simp
    omega

theorem pySplit_ne_nil (l : Line) : ∀ w ∈ pySplit l, w ≠ [] := by
  induction l using pySplit.induct with
  | case1 => intro w hw; simp [pySplit] at hw
  | case2 c cs hsp ih =>
    intro w hw
    rw [pySplit, if_pos hsp] at hw
    exact ih w hw
  | case3 c cs hsp ih =>
    intro w hw
    rw [pySplit, if_neg hsp] at hw
    rcases List.mem_cons.mp hw with hw | hw
    · simp [hw]
    · exact ih w hw

theorem leading_join_pySplit_le (l : Line) :
    (leadingWS l).length + (joinSpace (pySplit l)).length ≤ l.length := by
  induction l using pySplit.induct with
  | case1 => simp [leadingWS, pySplit, joinSpace]
  | case2 c cs hsp ih =>
    rw [pySplit, if_pos hsp, leadingWS, List.takeWhile_cons_of_pos hsp]
    rw [leadingWS] at ih
    simp only [List.length_cons]
    omega
  | case3 c cs hsp ih =>
    rw [pySplit, if_neg hsp, leadingWS, List.takeWhile_cons_of_neg hsp]
    have hlen := congrArg List.length
      (List.takeWhile_append_dropWhile (p := fun d => !pyIsSpace d) (l := cs))
    rw [List.length_append] at hlen
    rw [length_joinSpace_cons]
    rcases hdw : cs.dropWhile (fun d => !pyIsSpace d) with _ | ⟨d, ds⟩
    · rw [hdw] at hlen
      have hnil : pySplit [] = [] := by rw [pySplit]
      rw [hnil]
      simp only [List.length_nil, List.length_cons]
      simp
      omega
    · have hd : pyIsSpace d = true := by
        have h0 := dropWhile_head_false (fun x => !pyIsSpace x) cs d ds hdw
        simpa using h0
      rw [hdw] at ih hlen
      rw [leadingWS, List.takeWhile_cons_of_pos hd] at ih
      simp only [List.length_cons, List.length_nil] at ih hlen ⊢
      by_cases hps : pySplit (d :: ds) = []
      · rw [if_pos hps]
        omega
      · rw [if_neg hps]
        omega

theorem join_pySplit_le (l : Line) :
    (joinSpace (pySplit l)).length ≤ l.length := by
  have := leading_join_pySplit_le l
  omega

theorem length_join_splitline_le (l : Line) :
    (joinSpace (splitline l)).length ≤ l.length := by
  rw [splitline]
  rcases hps : pySplit l with _ | ⟨w0, ws⟩
  · simp [joinSpace]
  · have h1 := leading_join_pySplit_le l
    rw [hps] at h1
    rw [length_joinSpace_cons] at h1 ⊢
    simp only [List.length_append]
    omega

theorem join_drop_le (ws : List Line) (hne : ∀ x ∈ ws, x ≠ []) :
    ∀ n, 1 ≤ n → n ≤ ws.length →
      (joinSpace (ws.drop n)).length + n ≤ (joinSpace ws).length := by
  induction ws with
  | nil => intro n h1 h2; simp at h2; omega
  | cons w t ih =>
    intro n h1 h2
    have hw : w ≠ [] := hne w (List.mem_cons_self w t)
    have hwlen : 1 ≤ w.length := by
      cases w with
      | nil => exact absurd rfl hw
      | cons a b => simp
    rcases n with _ | m
    · omega
    · rw [List.drop_succ_cons]
      rw [length_joinSpace_cons]
      rcases m with _ | m2
    -- n = 1: drop 0 t = t
      · rw [List.drop_zero]
        by_cases ht : t = []
        · subst ht
          simp [joinSpace]
          omega
        · rw [if_neg ht]
          omega
      · have hm : 1 ≤ m2 + 1 := by omega
        have hlen : m2 + 1 ≤ t.length := by
          simp only [List.length_cons] at h2
          omega
        have := ih (fun x hx => hne x (List.mem_cons_of_mem w hx)) (m2 + 1) hm hlen
        by_cases ht : t = []
        · subst ht
          simp at hlen
        · rw [if_neg ht]
          omega

theorem splitline_shape (l : Line) (word : Line) (tail : List Line)
    (h : splitline l = word :: tail) :
    ∃ w0, pySplit l = w0 :: tail ∧ word = leadingWS l ++ w0 ∧ w0 ≠ [] := by
  rw [splitline] at h
  rcases hps : pySplit l with _ | ⟨w0, ws⟩
  · rw [hps] at h
    simp at h
  · rw [hps] at h
    simp only [List.cons.injEq] at h
    exact ⟨w0, by rw [h.2], h.1.symm, pySplit_ne_nil l w0 (hps ▸ List.mem_cons_self w0 ws)⟩

theorem dec_wc_requeue (l : Line) (word : Line) (tail : List Line)
    (h : splitline l = word :: tail) (n : Nat) (h1 : 1 ≤ n)
    (h2 : n < (word :: tail).length) :
    (joinSpace ((word :: tail).drop n)).length < l.length := by
  rcases splitline_shape l word tail h with ⟨w0, hps, hword, hw0⟩
  have hdropeq : (word :: tail).drop n = (pySplit l).drop n := by
    rw [hps]
    rcases n with _ | m
    · omega
    · rw [List.drop_succ_cons, List.drop_succ_cons]
  rw [hdropeq]
  have hle := join_drop_le (pySplit l) (pySplit_ne_nil l) n h1
    (by rw [hps]; simp only [List.length_cons] at h2 ⊢; omega)
  have hjl := join_pySplit_le l
  omega

theorem dec_letters_requeue (l : Line) (word : Line) (tail : List Line)
    (h : splitline l = word :: tail) (lc : Nat) (h1 : 1 ≤ lc)
    (h2 : lc ≤ word.length) :
    (joinSpace (if lc < word.length then word.drop lc :: tail else tail)).length
      < l.length := by
  rcases splitline_shape l word tail h with ⟨w0, hps, hword, hw0⟩
  have hwordlen : 1 ≤ word.length := by
    rw [hword]
    have : 1 ≤ w0.length := by
      cases w0 with
      | nil => exact absurd rfl hw0
      | cons a b => simp
    simp only [List.length_append]
    omega
  have hjsl := length_join_splitline_le l
  rw [h, length_joinSpace_cons] at hjsl
  by_cases hlt : lc < word.length
  · rw [if_pos hlt, length_joinSpace_cons, List.length_drop]
    by_cases ht : tail = []
    · subst ht
      simp only [if_pos rfl] at hjsl ⊢
      omega
    · rw [if_neg ht] at hjsl ⊢
      omega
  · rw [if_neg hlt]
    by_cases ht : tail = []
    · subst ht
      rw [show joinSpace [] = [] from by rw [joinSpace]]
      simp only [if_pos rfl] at hjsl
      simp only [List.length_nil]
      omega
    · rw [if_neg ht] at hjsl
      omega

/-! ## Loop postconditions and fuel lemmas -/

theorem wcLoop_spec (M : Measurer) (w : ℚ) (words : List Line) (k : Nat) :
    wcLoop M w words k = 0
      ∨ (extentW M (joinSpace (words.take (wcLoop M w words k))) ≤ w
          ∧ 1 ≤ wcLoop M w words k ∧ wcLoop M w words k ≤ k) := by
  induction k with
  | zero => left; rw [wcLoop]
  | succ k ih =>
    rw [wcLoop]
    split
    · rcases ih with h | ⟨h1, h2, h3⟩
      · left; exact h
      · right; exact ⟨h1, h2, by omega⟩
    · right
      refine ⟨?_, by omega, by omega⟩
      rename_i hc
      exact le_of_not_lt hc

theorem lcLoop_le (M : Measurer) (w : ℚ) (word : Line) :
    ∀ k, lcLoop M w word k ≤ k := by
  intro k
  induction k using lcLoop.induct M w word with
  | case1 => rw [lcLoop]
  | case2 => rw [lcLoop]
  | case3 k hc ih =>
    rw [lcLoop, if_pos hc]
    omega
  | case4 k hc =>
    rw [lcLoop, if_neg hc]

theorem lcLoop_pos (M : Measurer) (w : ℚ) (word : Line) :
    ∀ k, 1 ≤ k → 1 ≤ lcLoop M w word k := by
  intro k
  induction k using lcLoop.induct M w word with
  | case1 => intro h; omega
  | case2 => intro h; rw [lcLoop]
  | case3 k hc ih =>
    intro h
    rw [lcLoop, if_pos hc]
    exact ih (by omega)
  | case4 k hc =>
    intro h
    rw [lcLoop, if_neg hc]
    omega

theorem lcLoop_spec (M : Measurer) (w : ℚ) (word : Line) :
    ∀ k, 1 ≤ k →
      lcLoop M w word k = 1
        ∨ extentW M (word.take (lcLoop M w word k)) ≤ w := by
  intro k
  induction k using lcLoop.induct M w word with
  | case1 => intro h; omega
  | case2 => intro h; left; rw [lcLoop]
  | case3 k hc ih =>
    intro h
    rw [lcLoop, if_pos hc]
    exact ih (by omega)
  | case4 k hc =>
    intro h
    rw [lcLoop, if_neg hc]
    right
    exact le_of_not_lt hc

theorem measureL_cons (l : Line) (ls : List Line) :
    measureL (l :: ls) = l.length + 1 + measureL ls := by
  simp [measureL]

theorem wordWrapF_mono (M : Measurer) (w : ℚ) :
    ∀ fuel fuel2 ls out, fuel ≤ fuel2 →
      wordWrapF M w fuel ls = some out → wordWrapF M w fuel2 ls = some out := by
  intro fuel
  induction fuel with
  | zero =>
    intro fuel2 ls out _ h
    cases ls with
    | nil =>
      simp only [wordWrapF] at h
      simp only [wordWrapF]
      exact h
    | cons line rest =>
      simp only [wordWrapF] at h
      exact Option.noConfusion h
  | succ fuel ih =>
    intro fuel2 ls out hle h
    cases ls with
    | nil =>
      simp only [wordWrapF] at h
      cases fuel2 with
      | zero => omega
      | succ f2 => simp only [wordWrapF]; exact h
    | cons line rest =>
      obtain ⟨f2, rfl⟩ : ∃ f2, fuel2 = f2 + 1 := ⟨fuel2 - 1, by omega⟩
      have hle2 : fuel ≤ f2 := by omega
      rw [wordWrapF] at h
      rw [wordWrapF]
      rcases hsl : splitline line with _ | ⟨word, tail⟩
      · rw [wordWrapStep, hsl] at h
        rw [wordWrapStep, hsl]
        simp only [Option.map_eq_some'] at h
        rcases h with ⟨o, hrec, rfl⟩
        simp only [Option.map_eq_some']
        exact ⟨o, ih f2 rest o hle2 hrec, rfl⟩
      · rw [wordWrapStep, hsl] at h
        rw [wordWrapStep, hsl]
        dsimp only at h ⊢
        split_ifs at h ⊢ with hn hlen hlc
        · simp only [Option.map_eq_some'] at h ⊢
          rcases h with ⟨o, hrec, rfl⟩
          exact ⟨o, ih f2 _ o hle2 hrec, rfl⟩
        · simp only [Option.map_eq_some'] at h ⊢
          rcases h with ⟨o, hrec, rfl⟩
          exact ⟨o, ih f2 _ o hle2 hrec, rfl⟩
        · simp only [Option.map_eq_some'] at h ⊢
          rcases h with ⟨o, hrec, rfl⟩
          exact ⟨o, ih f2 _ o hle2 hrec, rfl⟩
        · simp only [Option.map_eq_some'] at h ⊢
          rcases h with ⟨o, hrec, rfl⟩
          exact ⟨o, ih f2 _ o hle2 hrec, rfl⟩

theorem splitline_head_len (l : Line) (word : Line) (tail : List Line)
    (h : splitline l = word :: tail) : 1 ≤ word.length := by
  rcases splitline_shape l word tail h with ⟨w0, _, hword, hw0⟩
  rw [hword]
  cases w0 with
  | nil => exact absurd rfl hw0
  | cons a b =>
    simp only [List.length_append, List.length_cons]
    omega

theorem wordWrapF_adequate (M : Measurer) (w : ℚ) :
    ∀ fuel ls, measureL ls ≤ fuel →
      ∃ out, wordWrapF M w fuel ls = some out := by
  intro fuel
  induction fuel with
  | zero =>
    intro ls h
    cases ls with
    | nil => exact ⟨[], by simp only [wordWrapF]⟩
    | cons line rest =>
      rw [measureL_cons] at h
      omega
  | succ fuel ih =>
    intro ls h
    cases ls with
    | nil => exact ⟨[], by simp only [wordWrapF]⟩
    | cons line rest =>
      rw [measureL_cons] at h
      rw [wordWrapF]
      rcases hsl : splitline line with _ | ⟨word, tail⟩
      · rw [wordWrapStep, hsl]
        obtain ⟨o, ho⟩ := ih rest (by omega)
        exact ⟨[] :: o, by rw [ho]; rfl⟩
      · rw [wordWrapStep, hsl]
        dsimp only
        by_cases hn : 0 < wcLoop M w (word :: tail) (word :: tail).length
        · rw [if_pos hn]
          by_cases hlen :
              wcLoop M w (word :: tail) (word :: tail).length
                < (word :: tail).length
          · rw [if_pos hlen]
            have hdec := dec_wc_requeue line word tail hsl
              (wcLoop M w (word :: tail) (word :: tail).length) hn hlen
            obtain ⟨o, ho⟩ := ih
              (joinSpace ((word :: tail).drop
                  (wcLoop M w (word :: tail) (word :: tail).length)) :: rest)
              (by rw [measureL_cons]; omega)
            exact ⟨_, by rw [ho]; rfl⟩
          · rw [if_neg hlen]
            obtain ⟨o, ho⟩ := ih rest (by omega)
            exact ⟨_, by rw [ho]; rfl⟩
        · rw [if_neg hn]
          have hword := splitline_head_len line word tail hsl
          have h1 := lcLoop_pos M w word word.length hword
          have h2 := lcLoop_le M w word word.length
          have hdec := dec_letters_requeue line word tail hsl
            (lcLoop M w word word.length) h1 h2
          obtain ⟨o, ho⟩ := ih
            (joinSpace
              (if lcLoop M w word word.length < word.length then
                word.drop (lcLoop M w word word.length) :: tail
              else tail) :: rest)
            (by rw [measureL_cons]; omega)
          exact ⟨_, by rw [ho]; rfl⟩

theorem word_wrap_eval (M : Measurer) (w : ℚ) (text : Line) (fuel : Nat)
    (hfuel : measureL (splitlines text) ≤ fuel) :
    ∃ out, wordWrapF M w fuel (splitlines text) = some out ∧
      word_wrap M text w = (if out = [] then [[]] else out) := by
  obtain ⟨out, hout⟩ :=
    wordWrapF_adequate M w (measureL (splitlines text)) (splitlines text)
      le_rfl
  refine ⟨out, wordWrapF_mono M w _ fuel _ out hfuel hout, ?_⟩
  rw [word_wrap, hout]

/-- C9: `word_wrap` terminates on every input text and width.  Each
iteration of its main loop consumes at least one character or one word of
the remaining input, so fuel `measureL` (total characters plus one per
line) suffices for the fuel-indexed loop, whose value `word_wrap` returns. -/
theorem word_wrap_terminates (M : Measurer) (w : ℚ) (text : Line) (fuel : Nat)
    (hfuel : measureL (splitlines text) ≤ fuel) :
    ∃ out, wordWrapF M w fuel (splitlines text) = some out ∧
      word_wrap M text w = (if out = [] then [[]] else out) :=
  word_wrap_eval M w text fuel hfuel

/-- Witness for C9 at a concrete input. -/
theorem word_wrap_terminates_witness :
    ∃ out, wordWrapF stubM 20 5 (splitlines ['a', 'b', ' ', 'c']) = some out ∧
      word_wrap stubM ['a', 'b', ' ', 'c'] 20
        = (if out = [] then [[]] else out) :=
  word_wrap_terminates stubM 20 ['a', 'b', ' ', 'c'] 5 (by decide)

theorem wordWrapF_line_fits (M : Measurer) (w : ℚ)
    (hM : extentW M [] = 0) (hw : 0 ≤ w) :
    ∀ fuel ls out, wordWrapF M w fuel ls = some out →
      ∀ L ∈ out, extentW M L ≤ w ∨ (L.length = 1 ∧ w < extentW M L) := by
  intro fuel
  induction fuel with
  | zero =>
    intro ls out h L hL
    cases ls with
    | nil =>
      simp only [wordWrapF, Option.some.injEq] at h
      subst h
      simp at hL
    | cons line rest =>
      simp only [wordWrapF] at h
      exact Option.noConfusion h
  | succ fuel ih =>
    intro ls out h L hL
    cases ls with
    | nil =>
      simp only [wordWrapF, Option.some.injEq] at h
      subst h
      simp at hL
    | cons line rest =>
      rw [wordWrapF] at h
      rcases hsl : splitline line with _ | ⟨word, tail⟩
      · rw [wordWrapStep, hsl] at h
        simp only [Option.map_eq_some'] at h
        rcases h with ⟨o, hrec, rfl⟩
        rcases List.mem_cons.mp hL with rfl | hL2
        · left
          rw [hM]
          exact hw
        · exact ih rest o hrec L hL2
      · rw [wordWrapStep, hsl] at h
        dsimp only at h
        split_ifs at h with hn hlen hlc
        · simp only [Option.map_eq_some'] at h
          rcases h with ⟨o, hrec, rfl⟩
          rcases List.mem_cons.mp hL with rfl | hL2
          · left
            rcases wcLoop_spec M w (word :: tail) (word :: tail).length
              with h0 | ⟨hfit, _, _⟩
            · omega
            · exact hfit
          · exact ih _ o hrec L hL2
        · simp only [Option.map_eq_some'] at h
          rcases h with ⟨o, hrec, rfl⟩
          rcases List.mem_cons.mp hL with rfl | hL2
          · left
            rcases wcLoop_spec M w (word :: tail) (word :: tail).length
              with h0 | ⟨hfit, _, _⟩
            · omega
            · exact hfit
          · exact ih _ o hrec L hL2
        · simp only [Option.map_eq_some'] at h
          rcases h with ⟨o, hrec, rfl⟩
          rcases List.mem_cons.mp hL with rfl | hL2
          · have hword := splitline_head_len line word tail hsl
            by_cases hfit : extentW M (word.take (lcLoop M w word word.length)) ≤ w
            · left
              exact hfit
            · right
              rcases lcLoop_spec M w word word.length hword with h1 | h1
              · constructor
                · rw [h1]
                  rw [List.length_take]
                  omega
                · exact lt_of_not_le hfit
              · exact absurd h1 hfit
          · exact ih _ o hrec L hL2
        · simp only [Option.map_eq_some'] at h
          rcases h with ⟨o, hrec, rfl⟩
          rcases List.mem_cons.mp hL with rfl | hL2
          · have hword := splitline_head_len line word tail hsl
            by_cases hfit : extentW M (word.take (lcLoop M w word word.length)) ≤ w
            · left
              exact hfit
            · right
              rcases lcLoop_spec M w word word.length hword with h1 | h1
              · constructor
                · rw [h1]
                  rw [List.length_take]
                  omega
                · exact lt_of_not_le hfit
              · exact absurd h1 hfit
          · exact ih _ o hrec L hL2

/-- C1 counterexample: the claim fails as stated at width `-1`: the
single character `'x'` wider than the width is emitted alone followed by
a requeued empty line, and that empty line (measured width 0) neither
fits the negative width nor is a single word or single character. -/
theorem word_wrap_line_fits_cex :
    ([] : Line) ∈ word_wrap stubM ['x'] (-1)
    ∧ ¬(extentW stubM ([] : Line) ≤ -1)
    ∧ ¬(pySplit ([] : Line) = [([] : Line)] ∨ ([] : Line).length = 1) := by
  refine ⟨?_, by norm_num [extentW, stubM], by
    rw [show pySplit ([] : Line) = [] from by rw [pySplit]]
    decide⟩
  rw [show word_wrap stubM ['x'] (-1) = [['x'], []] from by
    norm_num +decide [word_wrap, wordWrapF, wordWrapStep, measureL,
      splitlines, splitline, pySplit, leadingWS, joinSpace, wcLoop,
      lcLoop, extentW, stubM]]
  simp

/-- C1 amended: restricted to nonnegative maximum widths (with a measurer
giving the empty string width 0, as `extent_func` does), every line
returned by `word_wrap` either fits — measured width at most `w` — or is
a single unbreakable unit, one word or one single character, whose own
measured width exceeds `w`. -/
theorem word_wrap_line_fits (M : Measurer) (text : Line) (w : ℚ)
    (hM : extentW M [] = 0) (hw : 0 ≤ w) :
    ∀ L ∈ word_wrap M text w,
      extentW M L ≤ w
        ∨ ((pySplit L = [L] ∨ L.length = 1) ∧ w < extentW M L) := by
  intro L hL
  obtain ⟨out, hout, heq⟩ :=
    word_wrap_eval M w text (measureL (splitlines text)) le_rfl
  rw [heq] at hL
  by_cases hnil : out = []
  · rw [if_pos hnil] at hL
    simp at hL
    subst hL
    left
    rw [hM]
    exact hw
  · rw [if_neg hnil] at hL
    rcases wordWrapF_line_fits M w hM hw _ _ out hout L hL with h | ⟨h1, h2⟩
    · left
      exact h
    · right
      exact ⟨Or.inr h1, h2⟩

/-- Witness for C1 at a concrete input. -/
theorem word_wrap_line_fits_witness :
    extentW stubM ['a', 'b'] ≤ 20
      ∨ ((pySplit ['a', 'b'] = [['a', 'b']] ∨ (['a', 'b'] : Line).length = 1)
          ∧ 20 < extentW stubM ['a', 'b']) :=
  word_wrap_line_fits stubM ['a', 'b', ' ', 'c'] 20
    (by norm_num [stubM, extentW]) (by norm_num) ['a', 'b']
    (by
      rw [show word_wrap stubM ['a', 'b', ' ', 'c'] 20 = [['a', 'b'], ['c']]
        from by
          norm_num +decide [word_wrap, wordWrapF, wordWrapStep, measureL,
            splitlines, splitline, pySplit, leadingWS, joinSpace, wcLoop,
            lcLoop, extentW, stubM]]
      simp)

theorem wordWrapF_append (M : Measurer) (w : ℚ) :
    ∀ fuel ls1 ls2 out,
      wordWrapF M w fuel (ls1 ++ ls2) = some out →
      ∃ o1 o2, wordWrapF M w fuel ls1 = some o1
        ∧ wordWrapF M w fuel ls2 = some o2 ∧ out = o1 ++ o2 := by
  intro fuel
  induction fuel with
  | zero =>
    intro ls1 ls2 out h
    cases ls1 with
    | nil => exact ⟨[], out, by simp only [wordWrapF], h, rfl⟩
    | cons line rest =>
      rw [List.cons_append] at h
      simp only [wordWrapF] at h
      exact Option.noConfusion h
  | succ fuel ih =>
    intro ls1 ls2 out h
    cases ls1 with
    | nil => exact ⟨[], out, by simp only [wordWrapF], h, rfl⟩
    | cons line rest =>
      rw [List.cons_append] at h
      rw [wordWrapF] at h
      rcases hsl : splitline line with _ | ⟨word, tail⟩
      · rw [wordWrapStep, hsl] at h
        simp only [Option.map_eq_some'] at h
        rcases h with ⟨o, hrec, rfl⟩
        rcases ih rest ls2 o hrec with ⟨o1, o2, h1, h2, rfl⟩
        refine ⟨[] :: o1, o2, ?_, ?_, rfl⟩
        · rw [wordWrapF, wordWrapStep, hsl, h1]
          rfl
        · exact wordWrapF_mono M w fuel (fuel + 1) ls2 o2 (by omega) h2
      · rw [wordWrapStep, hsl] at h
        dsimp only at h
        split_ifs at h with hn hlen hlc
        · simp only [Option.map_eq_some'] at h
          rcases h with ⟨o, hrec, rfl⟩
          rw [← List.cons_append] at hrec
          rcases ih _ ls2 o hrec with ⟨o1, o2, h1, h2, rfl⟩
          refine ⟨_ :: o1, o2, ?_, ?_, rfl⟩
          · rw [wordWrapF, wordWrapStep, hsl]
            dsimp only
            rw [if_pos hn, if_pos hlen, h1]
            rfl
          · exact wordWrapF_mono M w fuel (fuel + 1) ls2 o2 (by omega) h2
        · simp only [Option.map_eq_some'] at h
          rcases h with ⟨o, hrec, rfl⟩
          rcases ih rest ls2 o hrec with ⟨o1, o2, h1, h2, rfl⟩
          refine ⟨_ :: o1, o2, ?_, ?_, rfl⟩
          · rw [wordWrapF, wordWrapStep, hsl]
            dsimp only
            rw [if_pos hn, if_neg hlen, h1]
            rfl
          · exact wordWrapF_mono M w fuel (fuel + 1) ls2 o2 (by omega) h2
        · simp only [Option.map_eq_some'] at h
          rcases h with ⟨o, hrec, rfl⟩
          rw [← List.cons_append] at hrec
          rcases ih _ ls2 o hrec with ⟨o1, o2, h1, h2, rfl⟩
          refine ⟨_ :: o1, o2, ?_, ?_, rfl⟩
          · rw [wordWrapF, wordWrapStep, hsl]
            dsimp only
            rw [if_neg hn, if_pos hlc, h1]
            rfl
          · exact wordWrapF_mono M w fuel (fuel + 1) ls2 o2 (by omega) h2
        · simp only [Option.map_eq_some'] at h
          rcases h with ⟨o, hrec, rfl⟩
          rw [← List.cons_append] at hrec
          rcases ih _ ls2 o hrec with ⟨o1, o2, h1, h2, rfl⟩
          refine ⟨_ :: o1, o2, ?_, ?_, rfl⟩
          · rw [wordWrapF, wordWrapStep, hsl]
            dsimp only
            rw [if_neg hn, if_neg hlc, h1]
            rfl
          · exact wordWrapF_mono M w fuel (fuel + 1) ls2 o2 (by omega) h2

theorem splitline_nil : splitline [] = [] := by
  rw [splitline, show pySplit [] = [] from by rw [pySplit]]

/-- C8: `word_wrap("", width)` is exactly `[""]` for every width and
measurer; `word_wrap` never returns an empty sequence; and an empty input
line in the middle of the input produces exactly one empty output line in
the corresponding position (blank lines are preserved, not dropped). -/
theorem word_wrap_empty_blank :
    (∀ (M : Measurer) (w : ℚ), word_wrap M [] w = [[]])
    ∧ (∀ (M : Measurer) (text : Line) (w : ℚ), word_wrap M text w ≠ [])
    ∧ (∀ (M : Measurer) (w : ℚ) (fuel : Nat) (ls1 ls2 out : List Line),
        wordWrapF M w fuel (ls1 ++ ([] : Line) :: ls2) = some out →
        ∃ o1 o2, wordWrapF M w fuel ls1 = some o1
          ∧ wordWrapF M w fuel ls2 = some o2
          ∧ out = o1 ++ ([] : Line) :: o2) := by
  refine ⟨?_, ?_, ?_⟩
  · intro M w
    rfl
  · intro M text w
    rw [word_wrap]
    rcases h : wordWrapF M w (measureL (splitlines text)) (splitlines text)
      with _ | o
    · simp
    · dsimp only
      by_cases ho : o = []
      · rw [if_pos ho]
        simp
      · rw [if_neg ho]
        exact ho
  · intro M w fuel ls1 ls2 out h
    rcases wordWrapF_append M w fuel ls1 (([] : Line) :: ls2) out h
      with ⟨o1, o', h1, h2, rfl⟩
    cases fuel with
    | zero =>
      simp only [wordWrapF] at h2
      exact Option.noConfusion h2
    | succ f =>
      rw [wordWrapF, wordWrapStep, splitline_nil] at h2
      simp only [Option.map_eq_some'] at h2
      rcases h2 with ⟨o2, hrec, rfl⟩
      exact ⟨o1, o2, h1,
        wordWrapF_mono M w f (f + 1) ls2 o2 (by omega) hrec, rfl⟩

/-- Witness for the blank-line-preservation part of C8 at a concrete
input. -/
theorem word_wrap_empty_blank_witness :
    ∃ o1 o2, wordWrapF stubM 100 10 [['a', 'b']] = some o1
      ∧ wordWrapF stubM 100 10 [['c', 'd']] = some o2
      ∧ [['a', 'b'], ([] : Line), ['c', 'd']] = o1 ++ ([] : Line) :: o2 :=
  word_wrap_empty_blank.2.2 stubM 100 10 [['a', 'b']] [['c', 'd']]
    [['a', 'b'], ([] : Line), ['c', 'd']]
    (by
      norm_num +decide [wordWrapF, wordWrapStep, splitline, pySplit,
        leadingWS, joinSpace, wcLoop, lcLoop, extentW, stubM])

theorem sumHeights_nil (M : Measurer) : sumHeights M [] = 0 := rfl

theorem sumHeights_cons (M : Measurer) (l : Line) (ls : List Line) :
    sumHeights M (l :: ls) = extentH M l + sumHeights M ls := by
  simp [sumHeights]

theorem clampLoop_nil (M : Measurer) (h : ℚ) (th : ℚ) (prev : Option Line) :
    clampLoop M h [] th prev = ([], th, []) := by
  rw [clampLoop.eq_def]

theorem clampLoop_cons (M : Measurer) (h : ℚ) (l : Line) (ls : List Line)
    (th : ℚ) (prev : Option Line) :
    clampLoop M h (l :: ls) th prev
      = if th + extentH M l > h then
          ([], th, match prev with | none => l | some p => p)
        else
          (l :: (clampLoop M h ls (th + extentH M l) (some l)).1,
            (clampLoop M h ls (th + extentH M l) (some l)).2.1,
            (clampLoop M h ls (th + extentH M l) (some l)).2.2) := by
  rw [clampLoop.eq_def]

theorem clampLoop_spec (M : Measurer) (h : ℚ) :
    ∀ ls th prev,
      (breakIndex M h ls th = none
        ∧ clampLoop M h ls th prev = (ls, th + sumHeights M ls, []))
      ∨ (∃ i, breakIndex M h ls th = some i
          ∧ (clampLoop M h ls th prev).1 = ls.take i
          ∧ (clampLoop M h ls th prev).2.1 = th + sumHeights M (ls.take i)
          ∧ (clampLoop M h ls th prev).2.2
              = (if i = 0
                then (match prev with | none => ls.getD 0 [] | some p => p)
                else ls.getD (i - 1) [])) := by
  intro ls
  induction ls with
  | nil =>
    intro th prev
    left
    constructor
    · rw [breakIndex]
    · rw [clampLoop_nil, sumHeights_nil]
      simp
  | cons l t ih =>
    intro th prev
    by_cases hc : th + extentH M l > h
    · right
      refine ⟨0, ?_, ?_, ?_, ?_⟩
      · rw [breakIndex, if_pos hc]
      · rw [clampLoop_cons, if_pos hc]
        rfl
      · rw [clampLoop_cons, if_pos hc]
        rw [show List.take 0 (l :: t) = [] from rfl, sumHeights_nil]
        simp
      · rw [clampLoop_cons, if_pos hc]
        simp only [if_pos rfl]
        cases prev with
        | none => rfl
        | some p => rfl
    · rcases ih (th + extentH M l) (some l) with ⟨hbi, hcl⟩ | ⟨j, hbi, h1, h2, h3⟩
      · left
        constructor
        · rw [breakIndex, if_neg hc, hbi]
          rfl
        · rw [clampLoop_cons, if_neg hc, hcl, sumHeights_cons]
          rw [add_assoc]
      · right
        refine ⟨j + 1, ?_, ?_, ?_, ?_⟩
        · rw [breakIndex, if_neg hc, hbi]
          rfl
        · rw [clampLoop_cons, if_neg hc]
          simp only
          rw [h1]
          rfl
        · rw [clampLoop_cons, if_neg hc]
          simp only
          rw [h2, List.take_succ_cons, sumHeights_cons]
          ring
        · rw [clampLoop_cons, if_neg hc]
          simp only
          rw [h3]
          cases j with
          | zero => simp
          | succ j2 => simp

theorem clampLoop_th_le (M : Measurer) (h : ℚ) :
    ∀ ls th prev, th ≤ h → (clampLoop M h ls th prev).2.1 ≤ h := by
  intro ls
  induction ls with
  | nil =>
    intro th prev hth
    rw [clampLoop_nil]
    exact hth
  | cons l t ih =>
    intro th prev hth
    rw [clampLoop_cons]
    by_cases hc : th + extentH M l > h
    · rw [if_pos hc]
      exact hth
    · rw [if_neg hc]
      exact ih (th + extentH M l) (some l) (le_of_not_lt hc)

theorem ellipsize_ends_dots (M : Measurer) (mw : ℚ) (ov : Line) :
    ∃ p, ellipsize M mw ov = p ++ dots := by
  rw [ellipsize]
  split_ifs with hfit
  · exact ⟨ov, rfl⟩
  · exact ⟨_, rfl⟩

/-- `check_for_vertical_overflow` returns `.ok` of the clamped lines
whenever the height bound is nonnegative: the final assert never fires
because every accepted line keeps the running total within the bound. -/
theorem cfvo_eval (M : Measurer) (lines : List Line) (h mw : ℚ)
    (hh : 0 ≤ h) :
    check_for_vertical_overflow M lines h mw
      = .ok (if (clampLoop M h lines 0 none).2.2 ≠ [] then
            (if (clampLoop M h lines 0 none).1 ≠ [] then
              (clampLoop M h lines 0 none).1.dropLast
                ++ [ellipsize M mw (clampLoop M h lines 0 none).2.2]
            else [ellipsize M mw (clampLoop M h lines 0 none).2.2])
          else (clampLoop M h lines 0 none).1) := by
  rw [check_for_vertical_overflow]
  rw [if_pos (clampLoop_th_le M h lines 0 none hh)]

theorem sumHeights_concat (M : Measurer) (xs : List Line) (e : Line) :
    sumHeights M (xs ++ [e]) = sumHeights M xs + extentH M e := by
  simp [sumHeights]

theorem sumHeights_dropLast_le (M : Measurer) (hH : ∀ s, 0 ≤ extentH M s) :
    ∀ ls, sumHeights M ls.dropLast ≤ sumHeights M ls := by
  intro ls
  induction ls with
  | nil => simp
  | cons l t ih =>
    cases t with
    | nil =>
      rw [List.dropLast_single]
      rw [sumHeights_nil, sumHeights_cons, sumHeights_nil]
      have := hH l
      linarith
    | cons x xs =>
      rw [List.dropLast_cons₂, sumHeights_cons, sumHeights_cons]
      have := ih
      linarith

theorem clampLoop_sum (M : Measurer) (h : ℚ) (ls : List Line) (th : ℚ)
    (prev : Option Line) :
    (clampLoop M h ls th prev).2.1
      = th + sumHeights M (clampLoop M h ls th prev).1 := by
  rcases clampLoop_spec M h ls th prev with ⟨_, hcl⟩ | ⟨i, _, h1, h2, _⟩
  · rw [hcl]
  · rw [h1, h2]

/-- C2 counterexample: with `lines = ["A", "B"]` and `max_height = 1`, the
accumulation first exceeds the bound at index 1 (line `"B"`), yet the
returned line is `"A..."`: the ellipsis went to the previous, already
accepted line `"A"`, not to the triggering line `"B"`, which was dropped. -/
theorem cfvo_candidate_cex :
    breakIndex cexM 1 [['A'], ['B']] 0 = some 1
    ∧ check_for_vertical_overflow cexM [['A'], ['B']] 1 100
        = .ok [['A', '.', '.', '.']]
    ∧ (['A', '.', '.', '.'] : Line) ≠ ['B'] ++ dots := by
  refine ⟨?_, ?_, by decide⟩
  · norm_num +decide [breakIndex, extentH, cexM]
  · norm_num +decide [check_for_vertical_overflow, clampLoop, ellipsize,
      extentW, extentH, dots, cexM]

theorem cfvo_break (M : Measurer) (lines : List Line) (h mw : ℚ)
    (i : Nat) (hh : 0 ≤ h) (hbi : breakIndex M h lines 0 = some i) :
    (clampLoop M h lines 0 none).2.2
        = (if i = 0 then lines.getD 0 [] else lines.getD (i - 1) [])
    ∧ ((clampLoop M h lines 0 none).2.2 ≠ [] →
        check_for_vertical_overflow M lines h mw
          = .ok ((lines.take i).dropLast
              ++ [ellipsize M mw ((clampLoop M h lines 0 none).2.2)])) := by
  rcases clampLoop_spec M h lines 0 none with ⟨hnone, _⟩ | ⟨j, hbj, h1, h2, h3⟩
  · rw [hnone] at hbi
    exact Option.noConfusion hbi
  · have hij : j = i := by
      rw [hbj] at hbi
      exact Option.some.inj hbi
    subst hij
    constructor
    · rw [h3]
    · intro hne
      rw [cfvo_eval M lines h mw hh, if_pos hne, h1]
      by_cases ht : lines.take j ≠ []
      · rw [if_pos ht]
      · rw [if_neg ht, not_not.mp ht]
        rfl

/-- C2 amended: when the accumulation loop of `check_for_vertical_overflow`
first exceeds `max_height` at line index `i`, the overflow candidate is
`lines[i-1]` — the last accepted line — for `i > 0`, and the triggering
line itself only for `i = 0`; when the candidate is nonempty its
ellipsized form replaces the last accepted line (the triggering line is
dropped). -/
theorem cfvo_candidate (M : Measurer) (lines : List Line) (h mw : ℚ)
    (i : Nat) (hh : 0 ≤ h) (hbi : breakIndex M h lines 0 = some i) :
    (clampLoop M h lines 0 none).2.2
        = (if i = 0 then lines.getD 0 [] else lines.getD (i - 1) [])
    ∧ ((clampLoop M h lines 0 none).2.2 ≠ [] →
        check_for_vertical_overflow M lines h mw
          = .ok ((lines.take i).dropLast
              ++ [ellipsize M mw ((clampLoop M h lines 0 none).2.2)])) :=
  cfvo_break M lines h mw i hh hbi

/-- Witness for the amended C2 at a concrete input. -/
theorem cfvo_candidate_witness :
    (clampLoop cexM 1 [['A'], ['B']] 0 none).2.2
        = (if 1 = 0 then [['A'], ['B']].getD 0 [] else [['A'], ['B']].getD 0 [])
    ∧ ((clampLoop cexM 1 [['A'], ['B']] 0 none).2.2 ≠ [] →
        check_for_vertical_overflow cexM [['A'], ['B']] 1 100
          = .ok (([['A'], ['B']].take 1).dropLast
              ++ [ellipsize cexM 100
                    ((clampLoop cexM 1 [['A'], ['B']] 0 none).2.2)])) :=
  cfvo_candidate cexM [['A'], ['B']] 1 100 1 (by norm_num)
    (by norm_num +decide [breakIndex, extentH, cexM])

/-- C4 counterexample: the `assert height >= text_height` of
`check_for_vertical_overflow` fails on a negative height bound — the
assertions do not hold for every input. -/
theorem cfvo_assert_cex :
    check_for_vertical_overflow stubM [['A']] (-1) 100
      = .error .assertionError := by
  norm_num +decide [check_for_vertical_overflow, clampLoop, ellipsize,
    extentW, extentH, dots, stubM]

/-- C4 amended: the assertion of `check_for_vertical_overflow` holds (the
call returns `.ok`) whenever the height bound is nonnegative, because
every accepted line keeps the running total within the bound; the
assertion of `render_hbounded_lines` is unreachable: the call raises
`TypeError` on every input because it passes five positional arguments to
the four-parameter `check_for_horizontal_overflow`. -/
theorem layout_assertions_amended :
    (∀ (M : Measurer) (lines : List Line) (h mw : ℚ), 0 ≤ h →
        ∃ out, check_for_vertical_overflow M lines h mw = .ok out)
    ∧ (∀ (M : Measurer) (labelText : Line)
        (labelWidth labelHeight : ℚ) (render_icon : Bool)
        (icon_size icon_padding : ℚ),
        render_hbounded_lines M labelText labelWidth labelHeight render_icon
          icon_size icon_padding = .error .typeError) := by
  constructor
  · intro M lines h mw hh
    exact ⟨_, cfvo_eval M lines h mw hh⟩
  · intro M labelText labelWidth labelHeight render_icon icon_size
      icon_padding
    rw [render_hbounded_lines, if_neg (by decide)]

/-- Witness for the amended C4 at a concrete input. -/
theorem layout_assertions_amended_witness :
    ∃ out, check_for_vertical_overflow stubM [['A']] 5 100 = .ok out :=
  layout_assertions_amended.1 stubM [['A']] 5 100 (by norm_num)

/-- C5 counterexample: with the input line `"hi..."` everything fits, so
no truncation occurs and the output equals the input — yet the final
returned line ends with `"..."`.  The claimed "if and only if" fails. -/
theorem cfvo_truncation_cex :
    breakIndex stubM 100 [['h', 'i', '.', '.', '.']] 0 = none
    ∧ check_for_vertical_overflow stubM [['h', 'i', '.', '.', '.']] 100 100
        = .ok [['h', 'i', '.', '.', '.']]
    ∧ dots.isSuffixOf ['h', 'i', '.', '.', '.'] = true := by
  refine ⟨?_, ?_, by decide⟩
  · norm_num +decide [breakIndex, extentH, stubM]
  · norm_num +decide [check_for_vertical_overflow, clampLoop, ellipsize,
      extentW, extentH, dots, stubM]

/-- C5 amended: with nonnegative line heights and a nonnegative height
bound, `check_for_vertical_overflow` succeeds and the returned lines'
cumulative height (including the replaced last line's height) exceeds
`max_height` by at most the final returned line's height; and the final
returned line ends with `"..."` if truncation occurred with a nonempty
overflow candidate (it may also end with `"..."` without truncation, when
the input's last kept line already did). -/
theorem cfvo_height_bound (M : Measurer) (lines : List Line) (h mw : ℚ)
    (hH : ∀ s, 0 ≤ extentH M s) (hh : 0 ≤ h) :
    ∃ out, check_for_vertical_overflow M lines h mw = .ok out
      ∧ sumHeights M out
          ≤ h + (match out.getLast? with | some l => extentH M l | none => 0)
      ∧ (∀ i, breakIndex M h lines 0 = some i →
          (clampLoop M h lines 0 none).2.2 ≠ [] →
          ∃ last p, out.getLast? = some last ∧ last = p ++ dots) := by
  have hle := clampLoop_th_le M h lines 0 none hh
  have hsum := clampLoop_sum M h lines 0 none
  refine ⟨_, cfvo_eval M lines h mw hh, ?_, ?_⟩
  · by_cases hov : (clampLoop M h lines 0 none).2.2 ≠ []
    · rw [if_pos hov]
      by_cases ht : (clampLoop M h lines 0 none).1 ≠ []
      · rw [if_pos ht]
        rw [sumHeights_concat, List.getLast?_concat]
        have hdrop := sumHeights_dropLast_le M hH (clampLoop M h lines 0 none).1
        have : sumHeights M (clampLoop M h lines 0 none).1 ≤ h := by linarith
        linarith
      · rw [if_neg ht]
        rw [show ([ellipsize M mw (clampLoop M h lines 0 none).2.2] : List Line)
          = [] ++ [ellipsize M mw (clampLoop M h lines 0 none).2.2] from rfl]
        rw [sumHeights_concat, List.getLast?_concat, sumHeights_nil]
        linarith
    · rw [if_neg hov]
      have hs : sumHeights M (clampLoop M h lines 0 none).1 ≤ h := by linarith
      cases hlast : (clampLoop M h lines 0 none).1.getLast? with
      | none => simpa using hs
      | some l =>
        have := hH l
        simp only
        linarith
  · intro i hbi hov
    rw [if_pos hov]
    obtain ⟨p, hp⟩ := ellipsize_ends_dots M mw (clampLoop M h lines 0 none).2.2
    by_cases ht : (clampLoop M h lines 0 none).1 ≠ []
    · rw [if_pos ht]
      exact ⟨_, p, List.getLast?_concat _, hp⟩
    · rw [if_neg ht]
      exact ⟨_, p, rfl, hp⟩

/-- Witness for the amended C5 at a concrete input. -/
theorem cfvo_height_bound_witness :
    ∃ out, check_for_vertical_overflow stubM [['A'], ['B'], ['C']] 15 100
        = .ok out
      ∧ sumHeights stubM out
          ≤ 15 + (match out.getLast? with
                  | some l => extentH stubM l | none => 0)
      ∧ (∀ i, breakIndex stubM 15 [['A'], ['B'], ['C']] 0 = some i →
          (clampLoop stubM 15 [['A'], ['B'], ['C']] 0 none).2.2 ≠ [] →
          ∃ last p, out.getLast? = some last ∧ last = p ++ dots) :=
  cfvo_height_bound stubM [['A'], ['B'], ['C']] 15 100
    (fun s => by norm_num [stubM, extentH]) (by norm_num)

/-- C3: for any measurer whose lines all have one positive height
`line_height` and where `"Line two..."` measures narrower than 200,
clamping `["Line one", "Line two", "Line three"]` to `2 * line_height`
yields exactly `["Line one", "Line two..."]` — the second accepted line is
replaced by its ellipsized form. -/
theorem cfvo_example (M : Measurer) (lh : ℚ) (hlh : ∀ s, extentH M s = lh)
    (hpos : 0 < lh) (hw : extentW M ("Line two...".data) < 200) :
    check_for_vertical_overflow M
      ["Line one".data, "Line two".data, "Line three".data] (2 * lh) 200
      = .ok ["Line one".data, "Line two...".data] := by
  have hbi : breakIndex M (2 * lh)
      ["Line one".data, "Line two".data, "Line three".data] 0 = some 2 := by
    rw [breakIndex, hlh, if_neg (by linarith)]
    rw [breakIndex, hlh, if_neg (by linarith)]
    rw [breakIndex, hlh, if_pos (by linarith)]
    rfl
  obtain ⟨hcand, himp⟩ := cfvo_break M
    ["Line one".data, "Line two".data, "Line three".data] (2 * lh) 200 2
    (by linarith) hbi
  have hc2 : (clampLoop M (2 * lh)
      ["Line one".data, "Line two".data, "Line three".data] 0 none).2.2
      = "Line two".data := by
    rw [hcand]
    decide
  have he : ellipsize M 200 ("Line two".data) = "Line two...".data := by
    rw [ellipsize]
    rw [show "Line two".data ++ dots = "Line two...".data from by decide]
    rw [if_pos hw]
  rw [himp (by rw [hc2]; decide), hc2, he]
  exact congrArg Except.ok (by decide)

/-- Witness for C3 at a concrete stub measurer. -/
theorem cfvo_example_witness :
    check_for_vertical_overflow stubM
      ["Line one".data, "Line two".data, "Line three".data] (2 * 10) 200
      = .ok ["Line one".data, "Line two...".data] :=
  cfvo_example stubM 10 (fun s => rfl) (by norm_num)
    (by norm_num [extentW, stubM,
      show (("Line two...".data) : List Char).length = 11 from by decide])

/-- C6 counterexample: box width 100, icon size 20, icon padding 2,
anchor `start`, text `"Hi"`, stub measurer (10 px per character).  The
margin from `check_for_horizontal_overflow` is 28, and the computed text
x-origin is `box.x + margin + 22` — an icon reservation of
`icon_size + icon_padding = 22` px, not the claimed 24 px
(`box.x + margin + 24 = 52 ≠ 50`). -/
theorem label_x_cex :
    check_for_horizontal_overflow stubM ['H', 'i'] 100 2 20
      = .ok ([['H', 'i']], 28, 76)
    ∧ (get_label_position_x "start" 0 100 20 2
        ⟨[['H', 'i']], 10, 10, 28, 20⟩ true).1 = 50
    ∧ (50 : ℚ) ≠ 0 + 28 + 24 := by
  refine ⟨?_, ?_, by norm_num⟩
  · norm_num +decide [check_for_horizontal_overflow, listMax, word_wrap,
      wordWrapF, wordWrapStep, measureL, splitlines, splitline, pySplit,
      leadingWS, joinSpace, wcLoop, lcLoop, extentW, stubM]
  · norm_num [get_label_position_x]

/-- C6 amended: with anchor `start` and an icon rendered, the text
x-origin is `box.x + margin + (icon_size + icon_padding)`: the icon
reservation added to the text x-origin is `icon_size + icon_padding`
(22 px for icon size 20 and padding 2), not `icon_size + 2*icon_padding`. -/
theorem label_x_start (labelX labelWidth icon_size icon_padding : ℚ)
    (ld : LinesData) :
    (get_label_position_x "start" labelX labelWidth icon_size icon_padding
        ld true).1
      = labelX + ld.margin + (icon_size + icon_padding) := by
  rw [get_label_position_x]
  norm_num

/-- C7: if a label style's transform matches the rotation pattern with any
angle other than `-90`, label drawing raises `NotImplementedError` (never
silently ignored); with angle exactly `-90` the label is emitted as a
single unwrapped line holding the whole text at the rotation pivot
(`tspan_y` replacing `y` when present), bypassing the wrapping pipeline
entirely. -/
theorem draw_label_rotation (rot : RotationMatch) (labelText : Line) :
    (rot.angle ≠ "-90" →
      drawLabelRotated rot labelText = .error .notImplementedError)
    ∧ (rot.angle = "-90" →
      drawLabelRotated rot labelText
        = .ok ([labelText],
            (rot.x,
              match rot.tspan_y with | some ty => ty | none => rot.y))) := by
  constructor
  · intro hne
    rw [drawLabelRotated, drawLabelRotationCheck, if_pos hne]
  · intro heq
    rw [drawLabelRotated, drawLabelRotationCheck,
      if_neg (by rw [heq]; exact fun hc => hc rfl)]

/-- Witness for C7 at a concrete rotation match. -/
theorem draw_label_rotation_witness :
    drawLabelRotated ⟨"-90", 3, 5, some 7⟩ ['h', 'i']
      = .ok ([['h', 'i']], (3, 7)) :=
  (draw_label_rotation ⟨"-90", 3, 5, some 7⟩ ['h', 'i']).2 rfl

/-- C10: `render_hbounded_lines` passes five positional arguments to
`check_for_horizontal_overflow`, which declares only four parameters, so
Python raises `TypeError` before any layout is computed: the non-rotated
label layout path never completes normally, for every input. -/
theorem render_hbounded_lines_type_error :
    chfoArgCountPassed ≠ chfoParamCount
    ∧ ∀ (M : Measurer) (labelText : Line) (labelWidth labelHeight : ℚ)
        (render_icon : Bool) (icon_size icon_padding : ℚ),
        render_hbounded_lines M labelText labelWidth labelHeight render_icon
          icon_size icon_padding = .error .typeError := by
  constructor
  · decide
  · intro M labelText labelWidth labelHeight render_icon icon_size
      icon_padding
    rw [render_hbounded_lines, if_neg (by decide)]
